import Mathlib

/-!
Verification of the chunking-and-embedding component (`src/component.py`).

The development shallowly embeds the component's `TextChunker` class, its
chunker selection (`init_chunker`), and the row-processing pipeline
(`_process_csv_format`, `_process_json_format`, `get_embedding`, and the
`__main__` exit-status mapping) as executable Lean definitions, and proves
or refutes the specification's claims about them.

Modelling conventions:
- Python strings are Lean `String`s; character-level operations go through
  `String.data` (a `List Char`).
- Python `str.strip()` is `pyStrip` (drop Unicode whitespace at both ends).
- Python `range(0, stop, step)` is `pyRange`: `none` models the `ValueError`
  raised for a zero step, a negative step with `start = 0 ≤ stop` gives the
  empty index list, and a positive step gives the arithmetic index list.
- Python generators are finite Lean lists (the generators in the source are
  all bounded by a `range`, so finiteness and order preservation are
  inherent in the embedding).
- Exceptions are modelled by `Option`/`Except` results and by the
  `PErr` error type; the incremental CSV writer is modelled by returning
  the records written before the first uncaught exception together with
  that exception.
- The external collaborators (NLTK tokenizers, the OpenAI client) are not
  part of the repository: `wordTokenize` models NLTK `word_tokenize` on the
  spec's "whitespace-delimited words" reading, the sentence tokenizer and
  the embedding provider are parameters of the definitions that use them.
-/

/-- Whitespace test used by the Python `str.strip()` model. -/
def isWs (c : Char) : Bool := c.isWhitespace

/-- Character-list model of Python `str.strip()`: drop whitespace from both
ends of the list. -/
def trimChars (l : List Char) : List Char :=
  ((l.dropWhile isWs).reverse.dropWhile isWs).reverse

/-- Python `str.strip()` on strings (via `trimChars` on the character data). -/
def pyStrip (s : String) : String :=
  String.mk (trimChars s.data)

/-- Helper for `splitWs`: scans the character list, accumulating the
current (reversed) token in `acc` and emitting it at each whitespace
boundary. -/
def splitWsAux : List Char → List Char → List (List Char)
  | [], acc => if acc = [] then [] else [acc.reverse]
  | c :: cs, acc =>
    if isWs c then
      if acc = [] then splitWsAux cs [] else acc.reverse :: splitWsAux cs []
    else splitWsAux cs (c :: acc)

/-- Splitting a character list into maximal runs of non-whitespace
characters (the tokens of a whitespace-delimited tokenization). -/
def splitWs (l : List Char) : List (List Char) :=
  splitWsAux l []

/-- Model of the external NLTK `word_tokenize` used at line 38 of
`component.py`.  NLTK is not part of this repository; per the spec the
words policy "tokenize[s] into whitespace-delimited words", which is what
this model implements (it agrees with NLTK on punctuation-free text such as
the spec's scenarios). -/
def wordTokenize (s : String) : List String :=
  (splitWs s.data).map String.mk

/-- Python `' '.join(l)`: interleave a single space between the strings. -/
def joinSpace : List String → String
  | [] => ""
  | [s] => s
  | s :: rest => s ++ " " ++ joinSpace rest

/-- Index list of Python `range(0, stop, step)` for a positive step `step`:
the multiples of `step` below `stop`. -/
def startIndices (stop step : Nat) : List Nat :=
  (List.range ((stop + step - 1) / step)).map (fun i => i * step)

/-- Python `range(0, stop, step)` with an arbitrary integer step, as used by
the chunkers of `component.py`.  A zero step raises `ValueError` (modelled
as `none`); a negative step with start `0` and `stop ≥ 0` yields no
indices; a positive step yields `startIndices`. -/
def pyRange (stop : Nat) (step : Int) : Option (List Nat) :=
  if step = 0 then none
  else if step < 0 then some []
  else some (startIndices stop step.toNat)

/-- Python `enumerate(l, start)`: pair each element with its running index. -/
def pyEnumerate {α : Type} (start : Nat) : List α → List (Nat × α)
  | [] => []
  | a :: as => (start, a) :: pyEnumerate (start + 1) as

/-- Python `dict` lookup `d[k]` on an association list of string fields
(`none` models a `KeyError`); also used for `d.get(k)`. -/
def dictGet (k : String) : List (String × String) → Option String
  | [] => none
  | kv :: rest => if kv.1 = k then some kv.2 else dictGet k rest

/-- Translation of `TextChunker.chunk_by_sentences` (`component.py` lines
23-34), parametric in the external sentence tokenizer (`sent_tokenize` of
NLTK; the `LookupError`/download retry is an I/O concern of the external
tokenizer and outside the model).  Groups of `sentences_per_chunk`
consecutive sentences are joined with spaces; blank groups are skipped. -/
def chunk_by_sentences (sent_tokenize : String → List String) (text : String)
    (sentences_per_chunk : Nat) : Option (List String) :=
  (pyRange (sent_tokenize text).length (sentences_per_chunk : Int)).map fun idxs =>
    (idxs.map fun i => joinSpace (((sent_tokenize text).drop i).take sentences_per_chunk)).filter
      fun chunk => decide (pyStrip chunk ≠ "")

/-- Translation of `TextChunker.chunk_by_words` (`component.py` lines
36-42), parametric in the word tokenizer.  The Python defaults are
`words_per_chunk = 100`, `overlap = 20`; the window starts are
`range(0, len(words), words_per_chunk - overlap)`, so the step is the
integer `words_per_chunk - overlap` (zero raises `ValueError`, negative
gives an empty range).  Windows of `words_per_chunk` words are joined with
spaces; blank chunks are skipped. -/
def chunk_by_words (word_tokenize : String → List String) (text : String)
    (words_per_chunk : Nat) (overlap : Nat) : Option (List String) :=
  (pyRange (word_tokenize text).length ((words_per_chunk : Int) - (overlap : Int))).map fun idxs =>
    (idxs.map fun i => joinSpace (((word_tokenize text).drop i).take words_per_chunk)).filter
      fun chunk => decide (pyStrip chunk ≠ "")

/-- Translation of `TextChunker.chunk_by_chars` (`component.py` lines
44-49): slices `text[i:i+chars_per_chunk]` for `i` in
`range(0, len(text), chars_per_chunk)`, each slice stripped, blank results
skipped. -/
def chunk_by_chars (text : String) (chars_per_chunk : Nat) : Option (List String) :=
  (pyRange text.data.length (chars_per_chunk : Int)).map fun idxs =>
    (idxs.map fun i => pyStrip (String.mk ((text.data.drop i).take chars_per_chunk))).filter
      fun chunk => decide (chunk ≠ "")

/-- Translation of `TextChunker.no_chunking` (`component.py` lines 51-54):
yield the stripped text when it is non-blank, nothing otherwise. -/
def no_chunking (text : String) : List String :=
  if pyStrip text ≠ "" then [pyStrip text] else []

/-- Modelled from the spec: the configuration-loading layer
(`configuration.py`, imported by `component.py` but not present under
`src/`).  The fields are exactly the settings the component reads
(`embedColumn`, `chunk_method`, `chunk_size`, `model`, `outputFormat`),
matching the spec's configuration surface; the component treats the loaded
object as fully validated. -/
structure Configuration where
  embedColumn : String
  chunk_method : String
  chunk_size : Nat
  model : String
  outputFormat : String
deriving DecidableEq

/-- Translation of `Component.init_chunker` (`component.py` lines 87-94),
parametric in the external tokenizers.  The Python code looks the
configured `chunk_method` up in a dict of callables and falls back to
`TextChunker.no_chunking` for any unrecognized name.  Note that the
`words` entry calls `chunk_by_words(text, chunk_size)` without an overlap
argument, so the Python default `overlap = 20` always applies. -/
def init_chunker (sent_tokenize word_tokenize : String → List String)
    (cfg : Configuration) : String → Option (List String) := fun text =>
  if cfg.chunk_method = "none" then some (no_chunking text)
  else if cfg.chunk_method = "sentences" then
    chunk_by_sentences sent_tokenize text cfg.chunk_size
  else if cfg.chunk_method = "words" then
    chunk_by_words word_tokenize text cfg.chunk_size 20
  else if cfg.chunk_method = "characters" then
    chunk_by_chars text cfg.chunk_size
  else some (no_chunking text)

/-- Exceptions that can escape the row-processing code of `component.py`:
`keyError` models the `KeyError` from `row[self._configuration.embedColumn]`
(lines 125 and 153), `userError` the `UserException` raised by
`get_embedding` (line 167), `valueError` the `ValueError` raised by
`range` for a zero step inside a chunker. -/
inductive PErr where
  | keyError : String → PErr
  | userError : String → PErr
  | valueError : PErr
deriving DecidableEq

/-- Translation of `Component.get_embedding` (`component.py` lines
162-167), parametric in the remote provider call
(`self.client.embeddings.create`, an external collaborator) and in the
type `Emb` of returned embedding vectors.  A provider failure is re-raised
as `UserException("Error getting embedding: ...")`; there is no fallback
value. -/
def get_embedding {Emb : Type} (embed : String → Except String Emb)
    (text : String) : Except PErr Emb :=
  match embed text with
  | Except.ok v => Except.ok v
  | Except.error e => Except.error (PErr.userError ("Error getting embedding: " ++ e))

/-- One record written by `_process_csv_format` (`component.py` lines
156-160): the copied source row plus the `chunk_id`, `chunk_text` and
`embedding` fields. -/
structure OutRow (Emb : Type) where
  base : List (String × String)
  chunk_id : Nat
  chunk_text : String
  embedding : Emb
deriving DecidableEq

/-- Inner loop of `_process_csv_format` (`component.py` lines 154-160) over
the enumerated chunks of one row: each chunk is embedded and written.  The
result pairs the records written with the first uncaught exception, if
any; records written before the exception stay written (the CSV writer is
incremental). -/
def emitChunks {Emb : Type} (embed : String → Except String Emb)
    (row : List (String × String)) :
    List (Nat × String) → List (OutRow Emb) × Option PErr
  | [] => ([], none)
  | (i, c) :: rest =>
    match get_embedding embed c with
    | Except.error e => ([], some e)
    | Except.ok v =>
      let step := emitChunks embed row rest
      (⟨row, i, c, v⟩ :: step.1, step.2)

/-- Processing of one row by `_process_csv_format` (`component.py` lines
152-160): look up the embed-target column (`KeyError` if absent), run the
chunker (`ValueError` if it raises), then embed and write each enumerated
chunk. -/
def processRow {Emb : Type} (cfg : Configuration)
    (embed : String → Except String Emb) (chunker : String → Option (List String))
    (row : List (String × String)) : List (OutRow Emb) × Option PErr :=
  match dictGet cfg.embedColumn row with
  | none => ([], some (PErr.keyError cfg.embedColumn))
  | some text =>
    match chunker text with
    | none => ([], some PErr.valueError)
    | some chunks => emitChunks embed row (pyEnumerate 0 chunks)

/-- Row loop of `_process_csv_format` (`component.py` lines 152-160): rows
are processed in input order; an uncaught exception aborts the loop,
leaving the records already written in the output file. -/
def processRows {Emb : Type} (cfg : Configuration)
    (embed : String → Except String Emb) (chunker : String → Option (List String)) :
    List (List (String × String)) → List (OutRow Emb) × Option PErr
  | [] => ([], none)
  | r :: rest =>
    match processRow cfg embed chunker r with
    | (outs, some e) => (outs, some e)
    | (outs, none) =>
      let step := processRows cfg embed chunker rest
      (outs ++ step.1, step.2)

/-- Header row written by `_process_csv_format` (`component.py` lines
148-150): the input fieldnames followed by the three appended fields. -/
def csvFieldnames (fieldnames : List String) : List String :=
  fieldnames ++ ["chunk_id", "chunk_text", "embedding"]

/-- Translation of `_process_csv_format` (`component.py` lines 146-160) as
a whole: the header fieldnames, the records written, and the first
uncaught exception if any. -/
def _process_csv_format {Emb : Type} (cfg : Configuration)
    (embed : String → Except String Emb) (chunker : String → Option (List String))
    (fieldnames : List String) (rows : List (List (String × String))) :
    List String × List (OutRow Emb) × Option PErr :=
  (csvFieldnames fieldnames, processRows cfg embed chunker rows)

/-- Serialized form of one written CSV record: `row.copy()` updated with
`chunk_id`, `chunk_text` and `embedding` (`component.py` lines 156-160),
with the embedding rendered by the CSV writer's string conversion
`serEmb`. -/
def serializeOutRow {Emb : Type} (serEmb : Emb → String) (o : OutRow Emb) :
    List (String × String) :=
  o.base ++ [("chunk_id", toString o.chunk_id), ("chunk_text", o.chunk_text),
    ("embedding", serEmb o.embedding)]

/-- Exit-status mapping of the `__main__` block (`component.py` lines
183-192): a `UserException` exits with status 1, any other exception with
status 2. -/
def exitCode : PErr → Nat
  | PErr.userError _ => 1
  | _ => 2

/-- Python `f"{n:03d}"` for the document/node identifiers of
`_process_json_format` (no truncation above three digits). -/
def fmt03 (n : Nat) : String :=
  if n < 10 then "00" ++ toString n
  else if n < 100 then "0" ++ toString n
  else toString n

/-- One node of the JSON output (`component.py` lines 134-138). -/
structure JsonNode (Emb : Type) where
  id : String
  content : String
  embedding : Emb
deriving DecidableEq

/-- One document of the JSON output (`component.py` lines 126-130). -/
structure JsonDocument (Emb : Type) where
  id : String
  title : String
  nodes : List (JsonNode Emb)
deriving DecidableEq

/-- Node loop of `_process_json_format` (`component.py` lines 132-139):
the chunks of one document, enumerated from 1, each embedded and turned
into a node `node_DDD_NNN`.  Any exception aborts the whole JSON run
(nothing is written: `json.dump` only runs after processing finishes). -/
def jsonNodesOf {Emb : Type} (embed : String → Except String Emb) (doc_idx : Nat) :
    List (Nat × String) → Except PErr (List (JsonNode Emb))
  | [] => Except.ok []
  | (i, c) :: rest =>
    match get_embedding embed c with
    | Except.error e => Except.error e
    | Except.ok v =>
      match jsonNodesOf embed doc_idx rest with
      | Except.error e => Except.error e
      | Except.ok nodes =>
        Except.ok (⟨"node_" ++ fmt03 doc_idx ++ "_" ++ fmt03 i, c, v⟩ :: nodes)

/-- Processing of one document by `_process_json_format` (`component.py`
lines 123-141): the embed-target column is read (`KeyError` if absent),
the chunker enumerated from 1, and the document assembled with id
`doc_DDD` and the row's `title` (defaulting to `Document {doc_idx}`). -/
def jsonDocOf {Emb : Type} (cfg : Configuration)
    (embed : String → Except String Emb) (chunker : String → Option (List String))
    (doc_idx : Nat) (row : List (String × String)) : Except PErr (JsonDocument Emb) :=
  match dictGet cfg.embedColumn row with
  | none => Except.error (PErr.keyError cfg.embedColumn)
  | some text =>
    match chunker text with
    | none => Except.error PErr.valueError
    | some chunks =>
      match jsonNodesOf embed doc_idx (pyEnumerate 1 chunks) with
      | Except.error e => Except.error e
      | Except.ok nodes =>
        Except.ok ⟨"doc_" ++ fmt03 doc_idx,
          (dictGet "title" row).getD ("Document " ++ toString doc_idx), nodes⟩

/-- Document loop of `_process_json_format` (`component.py` lines
123-144): rows enumerated from 1, each producing one document. -/
def jsonDocsFrom {Emb : Type} (cfg : Configuration)
    (embed : String → Except String Emb) (chunker : String → Option (List String)) :
    List (Nat × List (String × String)) → Except PErr (List (JsonDocument Emb))
  | [] => Except.ok []
  | (idx, row) :: rest =>
    match jsonDocOf cfg embed chunker idx row with
    | Except.error e => Except.error e
    | Except.ok doc =>
      match jsonDocsFrom cfg embed chunker rest with
      | Except.error e => Except.error e
      | Except.ok docs => Except.ok (doc :: docs)

/-- Translation of `_process_json_format` (`component.py` lines 96-144),
restricted to the document data (the static metadata header carries no
row-dependent content). -/
def _process_json_format {Emb : Type} (cfg : Configuration)
    (embed : String → Except String Emb) (chunker : String → Option (List String))
    (rows : List (List (String × String))) : Except PErr (List (JsonDocument Emb)) :=
  jsonDocsFrom cfg embed chunker (pyEnumerate 1 rows)

/-- Sequence numbers attached to the chunks of one row by the JSON path:
the `node_idx` values of `enumerate(self.chunker(text), 1)` at line 132 of
`component.py`. -/
def jsonNodeIndices (chunks : List String) : List Nat :=
  (pyEnumerate 1 chunks).map Prod.fst

/-- Recursive regrouping of a list into consecutive blocks of `n`
elements (final block possibly shorter).  This is the spec-side
characterization of the `characters` policy ("fixed-width slices of length
`size`, non-overlapping, slid left to right"); the theorems below relate
`chunk_by_chars` to it. -/
def chunksOfList {α : Type} (n : Nat) : List α → List (List α)
  | [] => []
  | a :: as =>
    if n = 0 then [] else (a :: as).take n :: chunksOfList n (as.drop (n - 1))
termination_by l => l.length
decreasing_by
  simp only [List.length_cons, List.length_drop]
  omega

/-- Placeholder sentence tokenizer used for the concrete fixtures (the
sentence policy is never exercised concretely by the claims; theorems
about it quantify over the tokenizer). -/
def stok0 : String → List String := fun s => [s]

/-- Concrete embedding provider that always succeeds, for fixtures;
`"[0.0]"` stands for a serialized vector. -/
def embedOk : String → Except String String := fun _ => Except.ok "[0.0]"

/-- Concrete embedding provider that always fails, for fixtures. -/
def embedFail : String → Except String String := fun _ => Except.error "boom"

/-- Fixture: configuration with chunking disabled, CSV output. -/
def cfgNone : Configuration := ⟨"text", "none", 3, "text-embedding-ada-002", "csv"⟩

/-- Fixture: configuration with the `words` policy and `chunk_size = 2`. -/
def cfgWords2 : Configuration := ⟨"text", "words", 2, "text-embedding-ada-002", "csv"⟩

/-- Fixture: configuration with the `words` policy and `chunk_size = 20`. -/
def cfgWords20 : Configuration := ⟨"text", "words", 20, "text-embedding-ada-002", "csv"⟩

/-- Fixture: configuration with the `words` policy and `chunk_size = 21`. -/
def cfgWords21 : Configuration := ⟨"text", "words", 21, "text-embedding-ada-002", "csv"⟩

/-- Fixture: configuration with the `characters` policy and `chunk_size = 3`. -/
def cfgChars3 : Configuration := ⟨"text", "characters", 3, "text-embedding-ada-002", "csv"⟩

/-- Fixture: configuration with an unrecognized `chunk_method`. -/
def cfgBogus : Configuration := ⟨"text", "paragraphs", 3, "text-embedding-ada-002", "csv"⟩

/-- Fixture: configuration with chunking disabled, JSON output. -/
def cfgNoneJson : Configuration := ⟨"text", "none", 3, "text-embedding-ada-002", "json"⟩

/-- Fixture: the pipeline chunker selected by `cfgNone`. -/
def chunkerNone : String → Option (List String) :=
  init_chunker stok0 wordTokenize cfgNone

theorem dropWhile_head?_not {α : Type} (p : α → Bool) (l : List α) (a : α)
    (h : (l.dropWhile p).head? = some a) : p a = false := by
  induction l with
  | nil => simp [List.dropWhile] at h
  | cons b bs ih =>
    by_cases hb : p b
    · rw [List.dropWhile_cons, if_pos hb] at h
      exact ih h
    · rw [List.dropWhile_cons, if_neg hb] at h
      simp at h
      rw [← h]
      exact Bool.eq_false_iff.mpr hb

theorem dropWhile_eq_self_of_head {α : Type} (p : α → Bool) (l : List α)
    (h : ∀ a, l.head? = some a → p a = false) : l.dropWhile p = l := by
  cases l with
  | nil => rfl
  | cons a as =>
    rw [List.dropWhile_cons, if_neg]
    simp [h a rfl]

theorem dropWhile_length_le {α : Type} (p : α → Bool) (l : List α) :
    (l.dropWhile p).length ≤ l.length := by
  induction l with
  | nil => simp [List.dropWhile]
  | cons a as ih =>
    rw [List.dropWhile_cons]
    by_cases h : p a
    · rw [if_pos h]
      exact Nat.le_succ_of_le ih
    · rw [if_neg h]

theorem dropWhile_getLast? {α : Type} (p : α → Bool) (l : List α)
    (h : l.dropWhile p ≠ []) : (l.dropWhile p).getLast? = l.getLast? := by
  induction l with
  | nil => simp [List.dropWhile] at h
  | cons a as ih =>
    by_cases ha : p a
    · rw [List.dropWhile_cons, if_pos ha] at h ⊢
      have has : as ≠ [] := by
        intro hnil
        rw [hnil] at h
        simp [List.dropWhile] at h
      rw [ih h]
      cases as with
      | nil => exact absurd rfl has
      | cons b bs => rw [List.getLast?_cons_cons]
    · rw [List.dropWhile_cons, if_neg ha]

theorem dropWhile_eq_self_of_all {α : Type} (p : α → Bool) (l : List α)
    (h : ∀ a ∈ l, p a = false) : l.dropWhile p = l := by
  cases l with
  | nil => rfl
  | cons a as =>
    rw [List.dropWhile_cons, if_neg]
    simp [h a (List.mem_cons_self a as)]

theorem trimChars_head?_not_ws (l : List Char) (a : Char)
    (h : (trimChars l).head? = some a) : isWs a = false := by
  unfold trimChars at h
  rw [List.head?_reverse] at h
  have hne : (l.dropWhile isWs).reverse.dropWhile isWs ≠ [] := by
    intro hnil
    rw [hnil] at h
    simp at h
  rw [dropWhile_getLast? isWs _ hne, List.getLast?_reverse] at h
  exact dropWhile_head?_not isWs l a h

theorem trimChars_getLast?_not_ws (l : List Char) (a : Char)
    (h : (trimChars l).getLast? = some a) : isWs a = false := by
  unfold trimChars at h
  rw [List.getLast?_reverse] at h
  exact dropWhile_head?_not isWs _ a h

theorem trimChars_trimChars (l : List Char) : trimChars (trimChars l) = trimChars l := by
  have h1 : (trimChars l).dropWhile isWs = trimChars l :=
    dropWhile_eq_self_of_head isWs _ (fun a ha => trimChars_head?_not_ws l a ha)
  have h2 : (trimChars l).reverse.dropWhile isWs = (trimChars l).reverse := by
    apply dropWhile_eq_self_of_head
    intro a ha
    rw [List.head?_reverse] at ha
    exact trimChars_getLast?_not_ws l a ha
  show (((trimChars l).dropWhile isWs).reverse.dropWhile isWs).reverse = trimChars l
  rw [h1, h2, List.reverse_reverse]

theorem trimChars_eq_self_of_no_ws (l : List Char)
    (h : ∀ c ∈ l, isWs c = false) : trimChars l = l := by
  unfold trimChars
  rw [dropWhile_eq_self_of_all isWs l h]
  rw [dropWhile_eq_self_of_all isWs l.reverse (fun c hc => h c (List.mem_reverse.mp hc))]
  exact List.reverse_reverse l

theorem trimChars_length_le (l : List Char) : (trimChars l).length ≤ l.length := by
  unfold trimChars
  calc (((l.dropWhile isWs).reverse.dropWhile isWs).reverse).length
      = ((l.dropWhile isWs).reverse.dropWhile isWs).length := List.length_reverse _
    _ ≤ (l.dropWhile isWs).reverse.length := dropWhile_length_le _ _
    _ = (l.dropWhile isWs).length := List.length_reverse _
    _ ≤ l.length := dropWhile_length_le _ _

theorem string_mk_data (l : List Char) : (String.mk l).data = l := rfl

theorem string_mk_eq_empty_iff (l : List Char) : String.mk l = "" ↔ l = [] := by
  constructor
  · intro h
    have := congrArg String.data h
    exact this
  · intro h
    rw [h]

theorem pyStrip_pyStrip (s : String) : pyStrip (pyStrip s) = pyStrip s := by
  unfold pyStrip
  rw [string_mk_data, trimChars_trimChars]

theorem pyStrip_eq_self_of_no_ws (s : String)
    (h : ∀ c ∈ s.data, isWs c = false) : pyStrip s = s := by
  unfold pyStrip
  rw [trimChars_eq_self_of_no_ws s.data h]

theorem startIndices_zero (n : Nat) : startIndices 0 n = [] := by
  unfold startIndices
  have h : (0 + n - 1) / n = 0 := by
    cases n with
    | zero => rfl
    | succ k => exact Nat.div_eq_of_lt (by omega)
  rw [h]
  rfl

theorem startIndices_succ (stop n : Nat) (hn : 0 < n) (hstop : 0 < stop) :
    startIndices stop n = 0 :: (startIndices (stop - n) n).map (fun i => i + n) := by
  unfold startIndices
  have h1 : stop + n - 1 = (stop - 1) + n := by omega
  rw [h1, Nat.add_div_right _ hn]
  have h2 : (stop - n + n - 1) / n = (stop - 1) / n := by
    by_cases hle : n ≤ stop
    · have : stop - n + n - 1 = stop - 1 := by omega
      rw [this]
    · have hz : stop - n = 0 := by omega
      rw [hz]
      have ha : (0 + n - 1) / n = 0 := Nat.div_eq_of_lt (by omega)
      have hb : (stop - 1) / n = 0 := Nat.div_eq_of_lt (by omega)
      rw [ha, hb]
  rw [h2, List.range_succ_eq_map]
  simp only [List.map_cons, List.map_map, Nat.zero_mul]
  congr 1
  apply List.map_congr_left
  intro i _
  simp [Nat.succ_mul]

theorem chunksOfList_cons {α : Type} (n : Nat) (hn : 0 < n) (a : α) (as : List α) :
    chunksOfList n (a :: as) = (a :: as).take n :: chunksOfList n ((a :: as).drop n) := by
  obtain ⟨m, rfl⟩ : ∃ m, n = m + 1 := ⟨n - 1, by omega⟩
  rw [chunksOfList]
  rw [if_neg (by omega)]
  rw [List.drop_succ_cons]
  have h : m + 1 - 1 = m := rfl
  rw [h]

theorem chunksOfList_nil {α : Type} (n : Nat) : chunksOfList n ([] : List α) = [] := by
  rw [chunksOfList]

theorem startIndices_map_slice {α : Type} (n : Nat) (hn : 0 < n) (l : List α) :
    (startIndices l.length n).map (fun i => (l.drop i).take n) = chunksOfList n l := by
  have main : ∀ N (l : List α), l.length ≤ N →
      (startIndices l.length n).map (fun i => (l.drop i).take n) = chunksOfList n l := by
    intro N
    induction N with
    | zero =>
      intro l hl
      have : l = [] := List.eq_nil_of_length_eq_zero (Nat.le_zero.mp hl)
      subst this
      simp [startIndices_zero, chunksOfList_nil]
    | succ N ih =>
      intro l hl
      cases l with
      | nil => simp [startIndices_zero, chunksOfList_nil]
      | cons a as =>
        have htail : (startIndices ((a :: as).length - n) n).map
            ((fun i => ((a :: as).drop i).take n) ∘ fun i => i + n) =
            chunksOfList n ((a :: as).drop n) := by
          have hlen : (a :: as).length - n = ((a :: as).drop n).length := by
            rw [List.length_drop]
          rw [hlen]
          have hfun : (startIndices ((a :: as).drop n).length n).map
              ((fun i => ((a :: as).drop i).take n) ∘ fun i => i + n) =
              (startIndices ((a :: as).drop n).length n).map
              (fun i => (((a :: as).drop n).drop i).take n) := by
            apply List.map_congr_left
            intro i _
            simp only [Function.comp_apply]
            congr 1
            rw [List.drop_drop]
            congr 1
            omega
          rw [hfun]
          apply ih
          simp only [List.length_drop, List.length_cons] at hl ⊢
          omega
        rw [startIndices_succ _ n hn (by simp)]
        rw [List.map_cons, List.map_map]
        rw [chunksOfList_cons n hn a as]
        rw [htail]
        simp
  exact main l.length l (Nat.le_refl _)

theorem chunksOfList_flatten {α : Type} (n : Nat) (hn : 0 < n) (l : List α) :
    (chunksOfList n l).flatten = l := by
  have main : ∀ N (l : List α), l.length ≤ N → (chunksOfList n l).flatten = l := by
    intro N
    induction N with
    | zero =>
      intro l hl
      have : l = [] := List.eq_nil_of_length_eq_zero (Nat.le_zero.mp hl)
      subst this
      simp [chunksOfList_nil]
    | succ N ih =>
      intro l hl
      cases l with
      | nil => simp [chunksOfList_nil]
      | cons a as =>
        rw [chunksOfList_cons n hn a as, List.flatten_cons]
        rw [ih ((a :: as).drop n) (by simp only [List.length_drop, List.length_cons] at hl ⊢; omega)]
        exact List.take_append_drop n (a :: as)
  exact main l.length l (Nat.le_refl _)

theorem chunksOfList_ne_nil {α : Type} (n : Nat) (hn : 0 < n) (l : List α)
    (g : List α) (hg : g ∈ chunksOfList n l) : g ≠ [] := by
  have main : ∀ N (l : List α), l.length ≤ N →
      ∀ g ∈ chunksOfList n l, g ≠ [] := by
    intro N
    induction N with
    | zero =>
      intro l hl g hg
      have : l = [] := List.eq_nil_of_length_eq_zero (Nat.le_zero.mp hl)
      subst this
      simp [chunksOfList_nil] at hg
    | succ N ih =>
      intro l hl g hg
      cases l with
      | nil => simp [chunksOfList_nil] at hg
      | cons a as =>
        rw [chunksOfList_cons n hn a as] at hg
        rcases List.mem_cons.mp hg with h | h
        · subst h
          intro hnil
          have := congrArg List.length hnil
          simp only [List.length_take, List.length_cons, List.length_nil] at this
          omega
        · exact ih ((a :: as).drop n)
            (by simp only [List.length_drop, List.length_cons] at hl ⊢; omega) g h
  exact main l.length l (Nat.le_refl _) g hg

theorem chunksOfList_length_le {α : Type} (n : Nat) (hn : 0 < n) (l : List α)
    (g : List α) (hg : g ∈ chunksOfList n l) : g.length ≤ n := by
  have main : ∀ N (l : List α), l.length ≤ N →
      ∀ g ∈ chunksOfList n l, g.length ≤ n := by
    intro N
    induction N with
    | zero =>
      intro l hl g hg
      have : l = [] := List.eq_nil_of_length_eq_zero (Nat.le_zero.mp hl)
      subst this
      simp [chunksOfList_nil] at hg
    | succ N ih =>
      intro l hl g hg
      cases l with
      | nil => simp [chunksOfList_nil] at hg
      | cons a as =>
        rw [chunksOfList_cons n hn a as] at hg
        rcases List.mem_cons.mp hg with h | h
        · subst h
          rw [List.length_take]
          omega
        · exact ih ((a :: as).drop n)
            (by simp only [List.length_drop, List.length_cons] at hl ⊢; omega) g h
  exact main l.length l (Nat.le_refl _) g hg

theorem chunksOfList_dropLast_length {α : Type} (n : Nat) (hn : 0 < n) (l : List α)
    (g : List α) (hg : g ∈ (chunksOfList n l).dropLast) : g.length = n := by
  have main : ∀ N (l : List α), l.length ≤ N →
      ∀ g ∈ (chunksOfList n l).dropLast, g.length = n := by
    intro N
    induction N with
    | zero =>
      intro l hl g hg
      have : l = [] := List.eq_nil_of_length_eq_zero (Nat.le_zero.mp hl)
      subst this
      simp [chunksOfList_nil] at hg
    | succ N ih =>
      intro l hl g hg
      cases l with
      | nil => simp [chunksOfList_nil] at hg
      | cons a as =>
        rw [chunksOfList_cons n hn a as] at hg
        cases hrest : chunksOfList n ((a :: as).drop n) with
        | nil =>
          rw [hrest] at hg
          simp at hg
        | cons b bs =>
          rw [hrest] at hg
          rw [List.dropLast_cons_of_ne_nil (by simp)] at hg
          rcases List.mem_cons.mp hg with h | h
          · subst h
            rw [List.length_take]
            have hne : (a :: as).drop n ≠ [] := by
              intro hnil
              rw [hnil, chunksOfList_nil] at hrest
              exact List.noConfusion hrest
            have : n < (a :: as).length := by
              by_contra hcon
              push_neg at hcon
              exact hne (List.drop_eq_nil_of_le hcon)
            omega
          · have := ih ((a :: as).drop n)
              (by simp only [List.length_drop, List.length_cons] at hl ⊢; omega) g
            rw [hrest] at this
            exact this h
  exact main l.length l (Nat.le_refl _) g hg

theorem string_eta (s : String) : String.mk s.data = s := by
  cases s
  rfl

theorem pyStrip_data (s : String) : (pyStrip s).data = trimChars s.data := rfl

theorem pyRange_pos (stop n : Nat) (hn : 0 < n) :
    pyRange stop (n : Int) = some (startIndices stop n) := by
  unfold pyRange
  rw [if_neg (by omega), if_neg (by omega)]
  congr 1

theorem startIndices_singleton (stop n : Nat) (h1 : 0 < stop) (h2 : stop ≤ n) :
    startIndices stop n = [0] := by
  rw [startIndices_succ stop n (by omega) h1]
  have : stop - n = 0 := by omega
  rw [this, startIndices_zero]
  rfl

theorem chunk_by_chars_eq (text : String) (n : Nat) (hn : 0 < n) :
    chunk_by_chars text n = some
      (((startIndices text.data.length n).map
        (fun i => pyStrip (String.mk ((text.data.drop i).take n)))).filter
        (fun c => decide (c ≠ ""))) := by
  unfold chunk_by_chars
  rw [pyRange_pos _ _ hn]
  rfl

theorem pyEnumerate_map_fst {α : Type} (s : Nat) (l : List α) :
    (pyEnumerate s l).map Prod.fst = List.range' s l.length := by
  induction l generalizing s with
  | nil => rfl
  | cons a as ih =>
    rw [pyEnumerate, List.map_cons, List.length_cons, List.range'_succ s as.length 1]
    rw [ih (s + 1)]

theorem emitChunks_ok {Emb : Type} (embed : String → Except String Emb)
    (row : List (String × String)) (l : List (Nat × String))
    (h : ∀ p ∈ l, ∃ v, embed p.2 = Except.ok v) :
    (emitChunks embed row l).2 = none ∧
      (emitChunks embed row l).1.map OutRow.chunk_id = l.map Prod.fst ∧
      (emitChunks embed row l).1.length = l.length := by
  induction l with
  | nil => exact ⟨rfl, rfl, rfl⟩
  | cons p rest ih =>
    obtain ⟨i, c⟩ := p
    obtain ⟨v, hv⟩ := h (i, c) (List.mem_cons_self _ _)
    have hge : get_embedding embed c = Except.ok v := by
      unfold get_embedding
      rw [hv]
    obtain ⟨ih1, ih2, ih3⟩ := ih (fun p hp => h p (List.mem_cons_of_mem _ hp))
    rw [emitChunks, hge]
    refine ⟨ih1, ?_, ?_⟩
    · simp only [List.map_cons]
      rw [ih2]
    · simp only [List.length_cons]
      rw [ih3]

theorem processRows_cons_err {Emb : Type} (cfg : Configuration)
    (embed : String → Except String Emb) (chunker : String → Option (List String))
    (r : List (String × String)) (rest : List (List (String × String)))
    (outs : List (OutRow Emb)) (e : PErr)
    (h : processRow cfg embed chunker r = (outs, some e)) :
    processRows cfg embed chunker (r :: rest) = (outs, some e) := by
  rw [processRows, h]

theorem processRows_cons_ok {Emb : Type} (cfg : Configuration)
    (embed : String → Except String Emb) (chunker : String → Option (List String))
    (r : List (String × String)) (rest : List (List (String × String)))
    (outs : List (OutRow Emb))
    (h : processRow cfg embed chunker r = (outs, none)) :
    processRows cfg embed chunker (r :: rest) =
      (outs ++ (processRows cfg embed chunker rest).1,
        (processRows cfg embed chunker rest).2) := by
  rw [processRows, h]

theorem processRows_append {Emb : Type} (cfg : Configuration)
    (embed : String → Except String Emb) (chunker : String → Option (List String))
    (A B : List (List (String × String)))
    (h : (processRows cfg embed chunker A).2 = none) :
    processRows cfg embed chunker (A ++ B) =
      ((processRows cfg embed chunker A).1 ++ (processRows cfg embed chunker B).1,
        (processRows cfg embed chunker B).2) := by
  induction A with
  | nil => simp [processRows]
  | cons r rest ih =>
    cases hr : processRow cfg embed chunker r with
    | mk outs err =>
      cases err with
      | some e =>
        rw [processRows_cons_err cfg embed chunker r rest outs e hr] at h
        simp at h
      | none =>
        rw [processRows_cons_ok cfg embed chunker r rest outs hr] at h
        rw [List.cons_append]
        rw [processRows_cons_ok cfg embed chunker r (rest ++ B) outs hr]
        rw [processRows_cons_ok cfg embed chunker r rest outs hr]
        rw [ih h]
        simp

example : chunk_by_chars "abcdefg" 3 = some ["abc", "def", "g"] := by decide
example : chunk_by_words wordTokenize "one two three four five" 2 0 =
    some ["one two", "three four", "five"] := by decide
example : chunk_by_words wordTokenize "one two three four five" 2 20 = some [] := by decide
example : chunk_by_words wordTokenize "one two three" 20 20 = none := by decide
example : no_chunking "  hi  " = ["hi"] := by decide
example : no_chunking "   " = [] := by decide
example : processRows cfgNone embedOk (init_chunker stok0 wordTokenize cfgNone)
    [[("text", "hello")]] =
    ([⟨[("text", "hello")], 0, "hello", "[0.0]"⟩], none) := by decide
example : processRows cfgNone embedFail (init_chunker stok0 wordTokenize cfgNone)
    [[("text", "hello")]] =
    ([], some (PErr.userError "Error getting embedding: boom")) := by decide
example : processRows cfgNone embedOk (init_chunker stok0 wordTokenize cfgNone)
    [[("text", "hi")], [("other", "x")]] =
    ([⟨[("text", "hi")], 0, "hi", "[0.0]"⟩], some (PErr.keyError "text")) := by decide
example : _process_json_format cfgNoneJson embedOk
    (init_chunker stok0 wordTokenize cfgNoneJson) [[("text", "hi")]] =
    Except.ok [⟨"doc_001", "Document 1", [⟨"node_001_001", "hi", "[0.0]"⟩]⟩] := rfl

theorem chunk_by_sentences_not_blank (stok : String → List String) (text : String)
    (n : Nat) (cs : List String) (c : String)
    (h : chunk_by_sentences stok text n = some cs) (hc : c ∈ cs) : pyStrip c ≠ "" := by
  unfold chunk_by_sentences at h
  cases hr : pyRange (stok text).length (n : Int) with
  | none =>
    rw [hr] at h
    exact Option.noConfusion h
  | some idxs =>
    rw [hr] at h
    simp only [Option.map_some'] at h
    rw [← Option.some.inj h] at hc
    have := (List.mem_filter.mp hc).2
    exact of_decide_eq_true this

theorem chunk_by_words_not_blank (wtok : String → List String) (text : String)
    (wpc overlap : Nat) (cs : List String) (c : String)
    (h : chunk_by_words wtok text wpc overlap = some cs) (hc : c ∈ cs) : pyStrip c ≠ "" := by
  unfold chunk_by_words at h
  cases hr : pyRange (wtok text).length ((wpc : Int) - (overlap : Int)) with
  | none =>
    rw [hr] at h
    exact Option.noConfusion h
  | some idxs =>
    rw [hr] at h
    simp only [Option.map_some'] at h
    rw [← Option.some.inj h] at hc
    have := (List.mem_filter.mp hc).2
    exact of_decide_eq_true this

theorem chunk_by_chars_not_blank (text : String) (n : Nat) (cs : List String) (c : String)
    (h : chunk_by_chars text n = some cs) (hc : c ∈ cs) : pyStrip c ≠ "" := by
  unfold chunk_by_chars at h
  cases hr : pyRange text.data.length (n : Int) with
  | none =>
    rw [hr] at h
    exact Option.noConfusion h
  | some idxs =>
    rw [hr] at h
    simp only [Option.map_some'] at h
    rw [← Option.some.inj h] at hc
    have hne : c ≠ "" := of_decide_eq_true (List.mem_filter.mp hc).2
    have hmem := (List.mem_filter.mp hc).1
    obtain ⟨i, _, hi⟩ := List.mem_map.mp hmem
    have hstrip : pyStrip c = c := by
      rw [← hi, pyStrip_pyStrip]
    rw [hstrip]
    exact hne

theorem no_chunking_not_blank (text : String) (c : String)
    (hc : c ∈ no_chunking text) : pyStrip c ≠ "" := by
  unfold no_chunking at hc
  by_cases hb : pyStrip text ≠ ""
  · rw [if_pos hb] at hc
    rcases List.mem_singleton.mp hc with rfl
    rw [pyStrip_pyStrip]
    exact hb
  · rw [if_neg hb] at hc
    exact absurd hc (List.not_mem_nil c)

theorem chunk_by_sentences_isSome (stok : String → List String) (text : String)
    (n : Nat) (hn : 0 < n) : ∃ cs, chunk_by_sentences stok text n = some cs := by
  unfold chunk_by_sentences
  rw [pyRange_pos _ _ hn]
  exact ⟨_, rfl⟩

theorem chunk_by_words_isSome (wtok : String → List String) (text : String)
    (wpc overlap : Nat) (h : (wpc : Int) - (overlap : Int) ≠ 0) :
    ∃ cs, chunk_by_words wtok text wpc overlap = some cs := by
  unfold chunk_by_words
  unfold pyRange
  rw [if_neg h]
  by_cases hneg : (wpc : Int) - (overlap : Int) < 0
  · rw [if_pos hneg]
    exact ⟨_, rfl⟩
  · rw [if_neg hneg]
    exact ⟨_, rfl⟩

theorem chunk_by_chars_isSome (text : String) (n : Nat) (hn : 0 < n) :
    ∃ cs, chunk_by_chars text n = some cs := by
  unfold chunk_by_chars
  rw [pyRange_pos _ _ hn]
  exact ⟨_, rfl⟩

/-- Claim C6 (corrected): for every input text, every policy and every
positive size, the pipeline's chunker (`init_chunker`) yields a sequence
(a finite, order-preserving Lean list by construction) in which no yielded
chunk is empty or whitespace-only — EXCEPT for the `words` policy with
`chunk_size = 20`: there the window step `chunk_size - overlap` is zero
(the overlap is fixed at the Python default 20) and the chunker raises
`ValueError` instead of yielding a sequence, so that case is excluded by
hypothesis.  "Not empty or whitespace-only" is stated as
`pyStrip c ≠ ""`. -/
theorem c6_chunker_yields_no_blank_chunks (stok wtok : String → List String)
    (cfg : Configuration) (text : String) (hsize : 0 < cfg.chunk_size)
    (hw : cfg.chunk_method = "words" → cfg.chunk_size ≠ 20) :
    ∃ cs, init_chunker stok wtok cfg text = some cs ∧ ∀ c ∈ cs, pyStrip c ≠ "" := by
  unfold init_chunker
  by_cases h1 : cfg.chunk_method = "none"
  · rw [if_pos h1]
    exact ⟨no_chunking text, rfl, fun c hc => no_chunking_not_blank text c hc⟩
  · rw [if_neg h1]
    by_cases h2 : cfg.chunk_method = "sentences"
    · rw [if_pos h2]
      obtain ⟨cs, hcs⟩ := chunk_by_sentences_isSome stok text cfg.chunk_size hsize
      exact ⟨cs, hcs, fun c hc =>
        chunk_by_sentences_not_blank stok text cfg.chunk_size cs c hcs hc⟩
    · rw [if_neg h2]
      by_cases h3 : cfg.chunk_method = "words"
      · rw [if_pos h3]
        have hstep : (cfg.chunk_size : Int) - (20 : Nat) ≠ 0 := by
          have := hw h3
          omega
        obtain ⟨cs, hcs⟩ := chunk_by_words_isSome wtok text cfg.chunk_size 20 hstep
        exact ⟨cs, hcs, fun c hc =>
          chunk_by_words_not_blank wtok text cfg.chunk_size 20 cs c hcs hc⟩
      · rw [if_neg h3]
        by_cases h4 : cfg.chunk_method = "characters"
        · rw [if_pos h4]
          obtain ⟨cs, hcs⟩ := chunk_by_chars_isSome text cfg.chunk_size hsize
          exact ⟨cs, hcs, fun c hc =>
            chunk_by_chars_not_blank text cfg.chunk_size cs c hcs hc⟩
        · rw [if_neg h4]
          exact ⟨no_chunking text, rfl, fun c hc => no_chunking_not_blank text c hc⟩

/-- Witness for C6: the theorem applied to the `characters` policy with
size 3 on `"ab cd"`. -/
theorem c6_chunker_yields_no_blank_chunks_witness :
    0 < cfgChars3.chunk_size ∧
    ∃ cs, init_chunker stok0 wordTokenize cfgChars3 "ab cd" = some cs ∧
      ∀ c ∈ cs, pyStrip c ≠ "" :=
  ⟨by decide, c6_chunker_yields_no_blank_chunks stok0 wordTokenize cfgChars3 "ab cd"
    (by decide) (by decide)⟩

/-- Counterexample for C6 as stated: under the `words` policy with the
positive size 20 the pipeline's chunker raises `ValueError` (the window
step `20 - 20` is zero), modelled as `none` — no sequence of chunks is
yielded at all, contradicting "for every positive size the chunker yields
a finite ... sequence". -/
theorem c6_counterexample_words_size_20 :
    init_chunker stok0 wordTokenize cfgWords20 "hello world" = none := by decide

/-- Claim C4 (code bug): the spec's scenario says the `words` policy with
size 2 (and overlap 0) chunks `"one two three four five"` into
`["one two", "three four", "five"]`, and that the window slides by
`size - overlap` as configured.  The code never passes the configured
overlap to `chunk_by_words`, so the Python default `overlap = 20` applies:
with `chunk_size = 2` the range step is `2 - 20 < 0` and the pipeline
yields NO chunks (first conjunct).  The underlying `chunk_by_words` with
an explicit overlap of 0 does produce exactly the chunks the spec
describes (second conjunct), confirming the intent and locating the slip
in `init_chunker`. -/
theorem c4_words_scenario_code_bug :
    init_chunker stok0 wordTokenize cfgWords2 "one two three four five" = some [] ∧
    chunk_by_words wordTokenize "one two three four five" 2 0 =
      some ["one two", "three four", "five"] :=
  ⟨by decide, by decide⟩

/-- Claim C10 (confirmed): any configured `chunk-method` value other than
the four recognized names silently selects the no-chunking behavior
(`dict.get` with default `TextChunker.no_chunking`); nothing rejects the
configuration. -/
theorem c10_unrecognized_method_defaults_to_no_chunking
    (stok wtok : String → List String) (cfg : Configuration) (text : String)
    (h1 : cfg.chunk_method ≠ "none") (h2 : cfg.chunk_method ≠ "sentences")
    (h3 : cfg.chunk_method ≠ "words") (h4 : cfg.chunk_method ≠ "characters") :
    init_chunker stok wtok cfg text = some (no_chunking text) := by
  unfold init_chunker
  rw [if_neg h1, if_neg h2, if_neg h3, if_neg h4]

/-- Witness for C10: the configured method `"paragraphs"` selects
`no_chunking`. -/
theorem c10_unrecognized_method_defaults_to_no_chunking_witness :
    cfgBogus.chunk_method ≠ "none" ∧ cfgBogus.chunk_method ≠ "sentences" ∧
    cfgBogus.chunk_method ≠ "words" ∧ cfgBogus.chunk_method ≠ "characters" ∧
    init_chunker stok0 wordTokenize cfgBogus "  hi " = some (no_chunking "  hi ") :=
  ⟨by decide, by decide, by decide, by decide,
    c10_unrecognized_method_defaults_to_no_chunking stok0 wordTokenize cfgBogus "  hi "
      (by decide) (by decide) (by decide) (by decide)⟩

/-- Claim C8 (corrected, amended part): idempotence holds for the
`characters` policy — every chunk `c` that `chunk_by_chars` produces from
some text re-chunks (same policy, same size) to exactly `[c]`.  The
produced chunk is stripped and at most `n` characters long, so re-chunking
takes a single slice equal to `c` itself. -/
theorem c8_chars_rechunk_idempotent (text : String) (n : Nat) (cs : List String)
    (c : String) (hn : 0 < n) (hcs : chunk_by_chars text n = some cs) (hc : c ∈ cs) :
    chunk_by_chars c n = some [c] := by
  rw [chunk_by_chars_eq text n hn] at hcs
  rw [← Option.some.inj hcs] at hc
  have hne : c ≠ "" := of_decide_eq_true (List.mem_filter.mp hc).2
  obtain ⟨i, hi_mem, hi⟩ := List.mem_map.mp (List.mem_filter.mp hc).1
  have hdata : c.data = trimChars ((text.data.drop i).take n) := by
    rw [← hi, pyStrip_data, string_mk_data]
  have hlen : c.data.length ≤ n := by
    rw [hdata]
    calc (trimChars ((text.data.drop i).take n)).length
        ≤ ((text.data.drop i).take n).length := trimChars_length_le _
      _ ≤ n := by
          rw [List.length_take]
          omega
  have hpos : 0 < c.data.length := by
    rcases Nat.eq_zero_or_pos c.data.length with h0 | h
    · exfalso
      apply hne
      have hnil : c.data = [] := List.eq_nil_of_length_eq_zero h0
      rw [← string_eta c, hnil]
    · exact h
  have hstripc : pyStrip c = c := by
    rw [← hi, pyStrip_pyStrip]
  rw [chunk_by_chars_eq c n hn]
  rw [startIndices_singleton c.data.length n hpos hlen]
  simp only [List.map_cons, List.map_nil, List.drop_zero]
  rw [List.take_of_length_le hlen, string_eta, hstripc]
  simp [List.filter_cons, hne]

/-- Witness for C8's amended theorem: `"abcdef"` chunks under `characters`
size 4 into `["abcd", "ef"]`, and re-chunking the produced chunk `"abcd"`
yields `["abcd"]` alone. -/
theorem c8_chars_rechunk_idempotent_witness :
    0 < 4 ∧ chunk_by_chars "abcdef" 4 = some ["abcd", "ef"] ∧
    "abcd" ∈ ["abcd", "ef"] ∧ chunk_by_chars "abcd" 4 = some ["abcd"] :=
  ⟨by decide, by decide, by decide,
    c8_chars_rechunk_idempotent "abcdef" 4 ["abcd", "ef"] "abcd"
      (by decide) (by decide) (by decide)⟩

/-- Counterexample for C8 as stated: under the pipeline's `words` policy
with size 21 (overlap fixed at the Python default 20), the text `"a b"`
chunks to `["a b", "b"]`; its first chunk is `"a b"` itself, which
satisfies the size bound (2 words ≤ 21), so re-chunking it is this very
call — and the result is `["a b", "b"]`, not the one-element sequence
`["a b"]` that idempotence demands. -/
theorem c8_counterexample_words_overlap :
    init_chunker stok0 wordTokenize cfgWords21 "a b" = some ["a b", "b"] ∧
    init_chunker stok0 wordTokenize cfgWords21 "a b" ≠ some ["a b"] :=
  ⟨by decide, by decide⟩

/-- Claim C9 (corrected): the concrete scenario holds —
`chunk_by_chars "abcdefg" 3 = ["abc", "def", "g"]` — and on
whitespace-free text the `characters` policy produces exactly the
non-overlapping left-to-right length-`n` regrouping of the text (final
slice possibly shorter): the chunks' character lists are `chunksOfList n`,
their concatenation restores the text, every chunk has at most `n`
characters and every non-final chunk exactly `n`.  (On text containing
whitespace the code strips each slice first — see the counterexample —
which is why the whitespace-free hypothesis is needed.) -/
theorem c9_characters_slices :
    chunk_by_chars "abcdefg" 3 = some ["abc", "def", "g"] ∧
    ∀ (text : String) (n : Nat), 0 < n → (∀ ch ∈ text.data, isWs ch = false) →
      ∃ cs, chunk_by_chars text n = some cs ∧
        cs.map String.data = chunksOfList n text.data ∧
        text.data = (cs.map String.data).flatten ∧
        (∀ g ∈ cs, g.data.length ≤ n) ∧
        (∀ g ∈ cs.dropLast, g.data.length = n) := by
  constructor
  · decide
  · intro text n hn hws
    have hslices_nows : ∀ i : Nat, ∀ ch ∈ (text.data.drop i).take n, isWs ch = false :=
      fun i ch hch => hws ch (List.drop_subset i text.data (List.take_subset n _ hch))
    have hmap_eq : (startIndices text.data.length n).map
        (fun i => pyStrip (String.mk ((text.data.drop i).take n))) =
        ((startIndices text.data.length n).map
          (fun i => (text.data.drop i).take n)).map String.mk := by
      rw [List.map_map]
      apply List.map_congr_left
      intro i _
      apply pyStrip_eq_self_of_no_ws
      intro ch hch
      rw [string_mk_data] at hch
      exact hslices_nows i ch hch
    have hfilter : ((chunksOfList n text.data).map String.mk).filter
        (fun c => decide (c ≠ "")) = (chunksOfList n text.data).map String.mk := by
      apply List.filter_eq_self.mpr
      intro a ha
      obtain ⟨g, hg, rfl⟩ := List.mem_map.mp ha
      apply decide_eq_true
      intro hemp
      exact chunksOfList_ne_nil n hn text.data g hg ((string_mk_eq_empty_iff g).mp hemp)
    have hcs : chunk_by_chars text n = some ((chunksOfList n text.data).map String.mk) := by
      rw [chunk_by_chars_eq text n hn, hmap_eq, startIndices_map_slice n hn text.data, hfilter]
    refine ⟨(chunksOfList n text.data).map String.mk, hcs, ?_, ?_, ?_, ?_⟩
    · rw [List.map_map]
      have hid : String.data ∘ String.mk = id := funext (fun l => rfl)
      rw [hid, List.map_id]
    · rw [List.map_map]
      have hid : String.data ∘ String.mk = id := funext (fun l => rfl)
      rw [hid, List.map_id, chunksOfList_flatten n hn]
    · intro g hg
      obtain ⟨gl, hgl, rfl⟩ := List.mem_map.mp hg
      rw [string_mk_data]
      exact chunksOfList_length_le n hn text.data gl hgl
    · intro g hg
      rw [← List.map_dropLast] at hg
      obtain ⟨gl, hgl, rfl⟩ := List.mem_map.mp hg
      rw [string_mk_data]
      exact chunksOfList_dropLast_length n hn text.data gl hgl

/-- Witness for C9: the general part applied to `"abcdefg"` with size 3. -/
theorem c9_characters_slices_witness :
    (0 : Nat) < 3 ∧
    ∃ cs, chunk_by_chars "abcdefg" 3 = some cs ∧
      cs.map String.data = chunksOfList 3 "abcdefg".data ∧
      "abcdefg".data = (cs.map String.data).flatten ∧
      (∀ g ∈ cs, g.data.length ≤ 3) ∧
      (∀ g ∈ cs.dropLast, g.data.length = 3) :=
  ⟨by decide, c9_characters_slices.2 "abcdefg" 3 (by decide) (by decide)⟩

/-- Counterexample for C9's general part as stated ("slices of length
`size`, only the final slice may be shorter"): chunking `"ab cd"` with
size 3 yields `["ab", "cd"]` — the first, non-final chunk has length 2,
and it is not the first length-3 slice `"ab "` of the text, because the
code strips each slice before yielding it. -/
theorem c9_counterexample_stripped_slices :
    chunk_by_chars "ab cd" 3 = some ["ab", "cd"] ∧
    "ab cd".data.take 3 ≠ "ab".data :=
  ⟨by decide, by decide⟩

theorem processRow_eq {Emb : Type} (cfg : Configuration)
    (embed : String → Except String Emb) (chunker : String → Option (List String))
    (row : List (String × String)) (text : String) (chunks : List String)
    (h1 : dictGet cfg.embedColumn row = some text) (h2 : chunker text = some chunks) :
    processRow cfg embed chunker row = emitChunks embed row (pyEnumerate 0 chunks) := by
  unfold processRow
  rw [h1]
  show (match chunker text with
    | none => (([] : List (OutRow Emb)), some PErr.valueError)
    | some chunks => emitChunks embed row (pyEnumerate 0 chunks)) =
    emitChunks embed row (pyEnumerate 0 chunks)
  rw [h2]

theorem processRow_keyError {Emb : Type} (cfg : Configuration)
    (embed : String → Except String Emb) (chunker : String → Option (List String))
    (row : List (String × String)) (h : dictGet cfg.embedColumn row = none) :
    processRow cfg embed chunker row = (([] : List (OutRow Emb)), some (PErr.keyError cfg.embedColumn)) := by
  unfold processRow
  rw [h]

theorem dictGet_append_of_none (k : String) (A B : List (String × String))
    (h : dictGet k A = none) : dictGet k (A ++ B) = dictGet k B := by
  induction A with
  | nil => rfl
  | cons kv rest ih =>
    rw [List.cons_append]
    simp only [dictGet] at h ⊢
    by_cases hk : kv.1 = k
    · rw [if_pos hk] at h
      exact absurd h (by simp)
    · rw [if_neg hk] at h ⊢
      exact ih h

/-- Claim C1 (corrected): a failing remote embedding call does NOT degrade
to an empty `EmbeddingResult` — `get_embedding` re-raises the provider
failure as `UserException("Error getting embedding: ...")` (first
conjunct), and an exception in the processing of a row aborts the row loop
immediately: rows after it are never processed and the error propagates
out of the pipeline (second conjunct). -/
theorem c1_provider_failure_raises :
    (∀ (Emb : Type) (embed : String → Except String Emb) (t e : String),
      embed t = Except.error e →
      get_embedding embed t =
        Except.error (PErr.userError ("Error getting embedding: " ++ e))) ∧
    (∀ (Emb : Type) (cfg : Configuration) (embed : String → Except String Emb)
      (chunker : String → Option (List String)) (r : List (String × String))
      (rest : List (List (String × String))) (outs : List (OutRow Emb)) (e : PErr),
      processRow cfg embed chunker r = (outs, some e) →
      processRows cfg embed chunker (r :: rest) = (outs, some e)) := by
  constructor
  · intro Emb embed t e h
    unfold get_embedding
    rw [h]
  · intro Emb cfg embed chunker r rest outs e h
    exact processRows_cons_err cfg embed chunker r rest outs e h

/-- Witness for C1's amended theorem: the always-failing provider makes
`get_embedding` raise, and the run over two rows aborts at the first with
no output and the raised `UserException`. -/
theorem c1_provider_failure_raises_witness :
    embedFail "hello" = Except.error "boom" ∧
    get_embedding embedFail "hello" =
      Except.error (PErr.userError ("Error getting embedding: " ++ "boom")) ∧
    processRows cfgNone embedFail chunkerNone [[("text", "hello")], [("text", "world")]] =
      ([], some (PErr.userError "Error getting embedding: boom")) :=
  ⟨rfl, c1_provider_failure_raises.1 String embedFail "hello" "boom" rfl,
    c1_provider_failure_raises.2 String cfgNone embedFail chunkerNone
      [("text", "hello")] [[("text", "world")]] [] _ (by decide)⟩

/-- Counterexample for C1 as stated: with a provider that fails, the
pipeline does not map the batch to the "empty" `EmbeddingResult` and
continue — it emits NO record at all and the `UserException` escapes the
row loop, aborting the run before the second row is processed. -/
theorem c1_counterexample_failure_aborts :
    processRows cfgNone embedFail chunkerNone [[("text", "hello")], [("text", "world")]] =
      ([], some (PErr.userError "Error getting embedding: boom")) := by decide

/-- Claim C2 (corrected, amended part): output records carry NO
`parent_id` at all.  The output header is exactly the input fieldnames
plus `chunk_id`, `chunk_text`, `embedding` (first conjunct: `parent_id`
is not among them unless it was an input column), and a serialized output
record has no `parent_id` key when its source row has none (second
conjunct).  No hash of the source text is computed anywhere and no
linking table exists in the code. -/
theorem c2_no_parent_id :
    (∀ fns : List String, "parent_id" ∉ fns → "parent_id" ∉ csvFieldnames fns) ∧
    (∀ (Emb : Type) (serEmb : Emb → String) (o : OutRow Emb),
      dictGet "parent_id" o.base = none →
      dictGet "parent_id" (serializeOutRow serEmb o) = none) := by
  constructor
  · intro fns h hmem
    rcases List.mem_append.mp hmem with h1 | h1
    · exact h h1
    · exact absurd h1 (by decide)
  · intro Emb serEmb o h
    unfold serializeOutRow
    rw [dictGet_append_of_none _ _ _ h]
    simp only [dictGet]
    rw [if_neg (by decide), if_neg (by decide), if_neg (by decide)]

/-- Witness for C2's amended theorem: a concrete run's single output
record and the concrete header both lack `parent_id`. -/
theorem c2_no_parent_id_witness :
    "parent_id" ∉ ["id", "text"] ∧
    "parent_id" ∉ csvFieldnames ["id", "text"] ∧
    dictGet "parent_id" [("id", "1"), ("text", "hi")] = none ∧
    dictGet "parent_id" (serializeOutRow (fun e => e)
      (⟨[("id", "1"), ("text", "hi")], 0, "hi", "[0.0]"⟩ : OutRow String)) = none :=
  ⟨by decide, c2_no_parent_id.1 ["id", "text"] (by decide), by decide,
    c2_no_parent_id.2 String (fun e => e) ⟨[("id", "1"), ("text", "hi")], 0, "hi", "[0.0]"⟩
      (by decide)⟩

/-- Counterexample for C2 as stated: in a concrete run the produced output
record, serialized exactly as the CSV writer writes it, has no
`parent_id` field, and `parent_id` is not in the header either — so not
"every output record carries a parent_id". -/
theorem c2_counterexample_no_parent_id :
    (processRows cfgNone embedOk chunkerNone [[("id", "1"), ("text", "hi")]]).1 =
      [⟨[("id", "1"), ("text", "hi")], 0, "hi", "[0.0]"⟩] ∧
    dictGet "parent_id" (serializeOutRow (fun e => e)
      (⟨[("id", "1"), ("text", "hi")], 0, "hi", "[0.0]"⟩ : OutRow String)) = none ∧
    "parent_id" ∉ csvFieldnames ["id", "text"] :=
  ⟨by decide, by decide, by decide⟩

/-- Claim C3 (corrected): with chunking disabled (`chunk_method = "none"`)
and a successful provider, the run completes without error and the output
row count equals the number of input rows whose embed-target text is
non-blank after stripping — NOT the total number of input rows: a row
whose text is empty or all-whitespace produces zero chunks
(`no_chunking`) and is silently dropped, not retained with an
empty-embedding marker. -/
theorem c3_none_policy_row_count (Emb : Type) (stok wtok : String → List String)
    (cfg : Configuration) (embed : String → Except String Emb)
    (rows : List (List (String × String))) (hmethod : cfg.chunk_method = "none")
    (hcols : ∀ r ∈ rows, ∃ t, dictGet cfg.embedColumn r = some t)
    (hembed : ∀ t, ∃ v, embed t = Except.ok v) :
    (processRows cfg embed (init_chunker stok wtok cfg) rows).2 = none ∧
    (processRows cfg embed (init_chunker stok wtok cfg) rows).1.length =
      (rows.filter
        (fun r => decide (pyStrip ((dictGet cfg.embedColumn r).getD "") ≠ ""))).length := by
  induction rows with
  | nil => exact ⟨rfl, rfl⟩
  | cons r rest ih =>
    obtain ⟨t, ht⟩ := hcols r (List.mem_cons_self _ _)
    have hch : init_chunker stok wtok cfg t = some (no_chunking t) := by
      unfold init_chunker
      rw [if_pos hmethod]
    obtain ⟨ih1, ih2⟩ := ih (fun r hr => hcols r (List.mem_cons_of_mem _ hr))
    by_cases hb : pyStrip t ≠ ""
    · have hnc : no_chunking t = [pyStrip t] := by
        unfold no_chunking
        rw [if_pos hb]
      obtain ⟨v, hv⟩ := hembed (pyStrip t)
      have hge : get_embedding embed (pyStrip t) = Except.ok v := by
        unfold get_embedding
        rw [hv]
      have hpr : processRow cfg embed (init_chunker stok wtok cfg) r =
          ([⟨r, 0, pyStrip t, v⟩], none) := by
        rw [processRow_eq cfg embed _ r t (no_chunking t) ht hch, hnc]
        show emitChunks embed r [(0, pyStrip t)] = _
        simp only [emitChunks, hge]
      rw [processRows_cons_ok cfg embed _ r rest _ hpr]
      refine ⟨ih1, ?_⟩
      have hpred : decide (pyStrip ((dictGet cfg.embedColumn r).getD "") ≠ "") = true := by
        rw [ht]
        exact decide_eq_true hb
      rw [List.filter_cons, if_pos hpred]
      simp only [List.length_append, List.length_cons, List.length_nil,
        List.singleton_append]
      omega
    · have hb2 : pyStrip t = "" := not_not.mp (fun hx => hb hx)
      have hnc : no_chunking t = [] := by
        unfold no_chunking
        rw [if_neg hb]
      have hpr : processRow cfg embed (init_chunker stok wtok cfg) r =
          (([] : List (OutRow Emb)), none) := by
        rw [processRow_eq cfg embed _ r t (no_chunking t) ht hch, hnc]
        rfl
      rw [processRows_cons_ok cfg embed _ r rest _ hpr]
      refine ⟨ih1, ?_⟩
      have hpred : decide (pyStrip ((dictGet cfg.embedColumn r).getD "") ≠ "") = false := by
        rw [ht]
        simp [hb2]
      rw [List.filter_cons, if_neg (by simp [hpred])]
      simp only [List.nil_append]
      exact ih2

/-- Witness for C3's amended theorem: two rows, one blank — the run
succeeds and exactly the non-blank row is emitted. -/
theorem c3_none_policy_row_count_witness :
    cfgNone.chunk_method = "none" ∧
    ((processRows cfgNone embedOk (init_chunker stok0 wordTokenize cfgNone)
        [[("text", "hi")], [("text", "   ")]]).2 = none ∧
      (processRows cfgNone embedOk (init_chunker stok0 wordTokenize cfgNone)
        [[("text", "hi")], [("text", "   ")]]).1.length =
      ([[("text", "hi")], [("text", "   ")]].filter
        (fun r => decide (pyStrip ((dictGet cfgNone.embedColumn r).getD "") ≠ ""))).length) :=
  ⟨by decide, c3_none_policy_row_count String stok0 wordTokenize cfgNone embedOk
    [[("text", "hi")], [("text", "   ")]] (by decide)
    (by
      intro r hr
      rcases List.mem_cons.mp hr with rfl | hr2
      · exact ⟨"hi", rfl⟩
      · rcases List.mem_cons.mp hr2 with rfl | hr3
        · exact ⟨"   ", rfl⟩
        · exact absurd hr3 (List.not_mem_nil r))
    (fun t => ⟨"[0.0]", rfl⟩)⟩

/-- Counterexample for C3 as stated: one input row whose embed-target text
is empty yields ZERO output rows under the `none` policy — the output row
count does not equal the input row count, and no empty-embedding marker
row is retained. -/
theorem c3_counterexample_blank_row_dropped :
    (processRows cfgNone embedOk chunkerNone [[("text", "")]]).1.length ≠
      ([[("text", "")]] : List (List (String × String))).length := by decide

/-- Claim C5 (corrected): a missing embed-target column DOES abort the
run, but it is discovered mid-stream — when the offending row is reached —
AFTER the records of all earlier rows have already been written (first
conjunct: the output is exactly the prefix's records, paired with the
`KeyError`); and it surfaces as a `KeyError`, which the `__main__` handler
maps to exit status 2 ("unexpected internal failure"), not to the
user-actionable status 1 reserved for `UserException` (remaining
conjuncts). -/
theorem c5_missing_column_midstream :
    (∀ (Emb : Type) (cfg : Configuration) (embed : String → Except String Emb)
      (chunker : String → Option (List String)) (A : List (List (String × String)))
      (r : List (String × String)) (B : List (List (String × String))),
      dictGet cfg.embedColumn r = none →
      (processRows cfg embed chunker A).2 = none →
      processRows cfg embed chunker (A ++ r :: B) =
        ((processRows cfg embed chunker A).1,
          some (PErr.keyError cfg.embedColumn))) ∧
    (∀ col : String, exitCode (PErr.keyError col) = 2) ∧
    (∀ msg : String, exitCode (PErr.userError msg) = 1) := by
  refine ⟨?_, fun col => rfl, fun msg => rfl⟩
  intro Emb cfg embed chunker A r B h1 h2
  rw [processRows_append cfg embed chunker A (r :: B) h2]
  rw [processRows_cons_err cfg embed chunker r B [] _
    (processRow_keyError cfg embed chunker r h1)]
  simp

/-- Witness for C5's amended theorem: a good first row followed by a row
missing the `text` column — the first row's record is already written
when the `KeyError` aborts the run, and the error maps to exit status 2. -/
theorem c5_missing_column_midstream_witness :
    dictGet "text" [("other", "x")] = none ∧
    (processRows cfgNone embedOk chunkerNone [[("text", "hi")]]).2 = none ∧
    processRows cfgNone embedOk chunkerNone ([[("text", "hi")]] ++ [("other", "x")] :: []) =
      ((processRows cfgNone embedOk chunkerNone [[("text", "hi")]]).1,
        some (PErr.keyError "text")) ∧
    exitCode (PErr.keyError "text") = 2 :=
  ⟨by decide, by decide,
    c5_missing_column_midstream.1 String cfgNone embedOk chunkerNone
      [[("text", "hi")]] [("other", "x")] [] (by decide) (by decide),
    c5_missing_column_midstream.2.1 "text"⟩

/-- Counterexample for C5 as stated: the run over `[good row, row missing
the column]` emits the first row's record BEFORE failing — the error is
discovered mid-stream after partial output has been written, not
"surfaced before any output is finalized"; and it is a `KeyError`
(exit status 2, an unexpected failure), not a user-actionable
configuration error. -/
theorem c5_counterexample_partial_output :
    processRows cfgNone embedOk chunkerNone [[("text", "hi")], [("other", "x")]] =
      ([⟨[("text", "hi")], 0, "hi", "[0.0]"⟩], some (PErr.keyError "text")) ∧
    exitCode (PErr.keyError "text") ≠ 1 :=
  ⟨by decide, by decide⟩

/-- Claim C7 (corrected): in the CSV shape the `chunk_id` of a row's
records does start at 0 and increments by 1 (`List.range`), but in the
JSON shape the node sequence numbering (`enumerate(chunker(text), 1)`,
embedded in the `node_DDD_NNN` ids) starts at 1 (`List.range' 1`), not
at 0. -/
theorem c7_sequence_indices (Emb : Type) (cfg : Configuration)
    (embed : String → Except String Emb) (chunker : String → Option (List String))
    (row : List (String × String)) (text : String) (chunks : List String)
    (h1 : dictGet cfg.embedColumn row = some text) (h2 : chunker text = some chunks)
    (hembed : ∀ t, ∃ v, embed t = Except.ok v) :
    (processRow cfg embed chunker row).1.map OutRow.chunk_id = List.range chunks.length ∧
    jsonNodeIndices chunks = List.range' 1 chunks.length := by
  constructor
  · rw [processRow_eq cfg embed chunker row text chunks h1 h2]
    obtain ⟨-, hmap, -⟩ := emitChunks_ok embed row (pyEnumerate 0 chunks)
      (fun p _ => hembed p.2)
    rw [hmap, pyEnumerate_map_fst 0 chunks, List.range_eq_range']
  · unfold jsonNodeIndices
    rw [pyEnumerate_map_fst 1 chunks]

/-- Witness for C7's amended theorem: a single-chunk row gives CSV
`chunk_id` list `[0]` and JSON node numbering `[1]`. -/
theorem c7_sequence_indices_witness :
    dictGet "text" [("text", "hi")] = some "hi" ∧
    chunkerNone "hi" = some ["hi"] ∧
    ((processRow cfgNone embedOk chunkerNone [("text", "hi")]).1.map OutRow.chunk_id =
        List.range 1 ∧
      jsonNodeIndices ["hi"] = List.range' 1 1) :=
  ⟨by decide, by decide,
    c7_sequence_indices String cfgNone embedOk chunkerNone [("text", "hi")] "hi" ["hi"]
      (by decide) (by decide) (fun t => ⟨"[0.0]", rfl⟩)⟩

/-- Counterexample for C7 as stated: in the JSON output shape the first
chunk of a row is numbered 1, not 0 — the single node of the concrete run
is `node_001_001` (document 1, node index 1), and `jsonNodeIndices` of a
one-chunk row is `[1]`, not `[0]`. -/
theorem c7_counterexample_json_starts_at_one :
    jsonNodeIndices ["hi"] = [1] ∧
    jsonNodeIndices ["hi"] ≠ [0] ∧
    _process_json_format cfgNoneJson embedOk
      (init_chunker stok0 wordTokenize cfgNoneJson) [[("text", "hi")]] =
      Except.ok [⟨"doc_001", "Document 1", [⟨"node_001_001", "hi", "[0.0]"⟩]⟩] :=
  ⟨by decide, by decide, rfl⟩
